import Mathlib

/-!
Verification of the PioneerGUI JSON path algebra and tree-editor update
protocol (src/lib/utils.ts, src/lib/components/JsonEditor.svelte,
src/App.svelte), shallowly embedded in Lean.

JavaScript runtime values are modelled by the mutual inductive family
JsonValue / JsonArr / JsonObj (a JSON tree whose arrays are lists of values
and whose mappings are insertion-ordered association lists, exactly the
shape a JavaScript object presents through Object.entries).  Beyond the six
JSON shapes of the TypeScript JsonValue union the type carries two extra
constructors for runtime values the code can actually produce and store:
JsonValue.undef models the JavaScript value undefined (out-of-range array
reads, absent object keys, and the holes setValue can write), and
JsonValue.nan models the NaN number that Number() returns on unparseable
text.  Well-formed values (predicate wf) contain neither and have pairwise
distinct mapping keys, matching what the TypeScript type admits.

Numbers are modelled as rationals; machine-float rounding is irrelevant to
every claim treated here.  JavaScript property assignment updates an
existing key in place and appends a new one; array assignment out of range
pads with undefined holes.
-/

mutual

inductive JsonValue where
  | null : JsonValue
  | bool (b : Bool) : JsonValue
  | num (q : Rat) : JsonValue
  | nan : JsonValue
  | str (s : String) : JsonValue
  | arr (items : JsonArr) : JsonValue
  | obj (entries : JsonObj) : JsonValue
  | undef : JsonValue
  deriving DecidableEq

inductive JsonArr where
  | nil : JsonArr
  | cons (hd : JsonValue) (tl : JsonArr) : JsonArr
  deriving DecidableEq

inductive JsonObj where
  | nil : JsonObj
  | cons (key : String) (val : JsonValue) (tl : JsonObj) : JsonObj
  deriving DecidableEq

end

/-- A path segment: a mapping key (string) or an array index (number),
mirroring the TypeScript type JsonPath = Array of string or number.
Indices are natural numbers, the only indices the application produces. -/
inductive Seg where
  | key (s : String) : Seg
  | idx (n : Nat) : Seg
  deriving DecidableEq

abbrev JsonPath := List Seg

/-- Decimal digit character: chr(48 + d). -/
def digitChar (d : Nat) : Char := Char.ofNat (48 + d)

/-- Fuel-driven accumulator loop producing the decimal digits of n in front
of acc (the fuel is only there to make the recursion structural; natChars
always supplies enough). -/
def natCharsCore : Nat → Nat → List Char → List Char
  | 0, _, acc => acc
  | fuel + 1, n, acc =>
    if n < 10 then digitChar n :: acc
    else natCharsCore fuel (n / 10) (digitChar (n % 10) :: acc)

/-- Decimal representation of a natural number, modelling the JavaScript
coercion of an array index to a property key (index.toString()). -/
def natChars (n : Nat) : List Char := natCharsCore (n + 1) n []

def natStr (n : Nat) : String := String.mk (natChars n)

/-- The property key a segment denotes when used on a JavaScript object:
strings are used as-is, numbers are coerced to their decimal string. -/
def segKey : Seg → String
  | .key s => s
  | .idx n => natStr n

/-- typeof v is null / boolean / number / string (the guard on line 10 of
getValue and line 74 of collectPaths; NaN is typeof number). -/
def isScalar : JsonValue → Bool
  | .null | .bool _ | .num _ | .nan | .str _ => true
  | _ => false

/-- JavaScript property read obj[k]: the stored value, or undefined when
the key is absent. -/
def objGet : JsonObj → String → JsonValue
  | .nil, _ => .undef
  | .cons k1 v1 rest, k => if k1 = k then v1 else objGet rest k

/-- JavaScript property assignment obj[k] = v on a (copied) object: an
existing key is updated in place, a new key is appended. -/
def objInsert : JsonObj → String → JsonValue → JsonObj
  | .nil, k, v => .cons k v .nil
  | .cons k1 v1 rest, k, v =>
    if k1 = k then .cons k v rest else .cons k1 v1 (objInsert rest k v)

/-- Whether an object has the property k. -/
def hasKey : JsonObj → String → Bool
  | .nil, _ => false
  | .cons k1 _ rest, k => k1 = k || hasKey rest k

/-- The keys of an object, in stored order. -/
def keys : JsonObj → List String
  | .nil => []
  | .cons k _ rest => k :: keys rest

/-- JavaScript array element read a[n]: undefined when out of range. -/
def arrGet : JsonArr → Nat → JsonValue
  | .nil, _ => .undef
  | .cons x _, 0 => x
  | .cons _ xs, n + 1 => arrGet xs n

/-- JavaScript array element assignment a[n] = v on a (copied) array: an
in-range index is replaced; an out-of-range assignment pads the array with
undefined holes up to index n and stores v there. -/
def arrSet : JsonArr → Nat → JsonValue → JsonArr
  | .nil, 0, v => .cons v .nil
  | .nil, n + 1, v => .cons .undef (arrSet .nil n v)
  | .cons _ xs, 0, v => .cons v xs
  | .cons x xs, n + 1, v => .cons x (arrSet xs n v)

def arrLen : JsonArr → Nat
  | .nil => 0
  | .cons _ xs => arrLen xs + 1

mutual

/-- Well-formedness: the value inhabits the TypeScript JsonValue type (no
undefined, no NaN anywhere) and every mapping has pairwise distinct keys,
as JavaScript objects do. -/
def wf : JsonValue → Bool
  | .null | .bool _ | .num _ | .str _ => true
  | .nan | .undef => false
  | .arr xs => wfArr xs
  | .obj kvs => wfObj kvs

def wfArr : JsonArr → Bool
  | .nil => true
  | .cons x xs => wf x && wfArr xs

def wfObj : JsonObj → Bool
  | .nil => true
  | .cons k v rest => !(hasKey rest k) && wf v && wfObj rest

end

/-- One step of the reduce inside getValue (src/lib/utils.ts lines 6-20):
undefined propagates, a scalar is returned as-is (lines 10-12 return acc,
not undefined), an array resolves a numeric segment (undefined out of
range), a mapping resolves a string segment (undefined when absent), and
any kind mismatch yields undefined (line 19). -/
def getStep (acc : JsonValue) (k : Seg) : JsonValue :=
  match acc with
  | .undef => .undef
  | .null | .bool _ | .num _ | .nan | .str _ => acc
  | .arr xs =>
    match k with
    | .idx n => arrGet xs n
    | .key _ => .undef
  | .obj kvs =>
    match k with
    | .idx _ => .undef
    | .key s => objGet kvs s

/-- getValue (src/lib/utils.ts lines 5-21): fold the segments over the root
with getStep, exactly the path.reduce of the source.  The function is total
(never throws); JsonValue.undef is the undefined result. -/
def getValue (root : JsonValue) (path : JsonPath) : JsonValue :=
  path.foldl getStep root

/-- setValue (src/lib/utils.ts lines 23-44).  An empty path replaces the
whole tree.  On an array, a numeric head updates the (cloned) element, any
other head returns the root unchanged (line 29).  On a scalar and on
undefined (typeof undefined is not object, line 34) the root is returned
unchanged.  On a mapping, the head is coerced to a property key (the
clone[head as string] access); when further segments remain, the stored
value at that key (undefined when absent) is updated recursively - no
empty mapping is synthesized. -/
def setValue (root : JsonValue) (path : JsonPath) (value : JsonValue) : JsonValue :=
  match path with
  | [] => value
  | head :: rest =>
    match root with
    | .arr xs =>
      match head with
      | .idx n => .arr (arrSet xs n (setValue (arrGet xs n) rest value))
      | .key _ => .arr xs
    | .null | .bool _ | .num _ | .nan | .str _ | .undef => root
    | .obj kvs =>
      if rest = [] then .obj (objInsert kvs (segKey head) value)
      else .obj (objInsert kvs (segKey head) (setValue (objGet kvs (segKey head)) rest value))

mutual

/-- deepMerge (src/lib/utils.ts lines 85-98): a non-mapping override
replaces the base outright (line 86); a mapping override over a non-mapping
base is shallow-copied (line 90); two mappings start from a copy of base
and insert, for every override entry in order, the recursive merge of the
corresponding base value (undefined when absent) with the override value. -/
def deepMerge : JsonValue → JsonValue → JsonValue
  | base, .obj okvs =>
    (match base with
     | .obj bkvs => .obj (mergeInto bkvs bkvs okvs)
     | _ => .obj okvs)
  | _, override => override

/-- The for-of loop of deepMerge: bkvs is the original base mapping used
for lookups, acc the result object being assigned into. -/
def mergeInto (bkvs acc : JsonObj) : JsonObj → JsonObj
  | .nil => acc
  | .cons k v rest => mergeInto bkvs (objInsert acc k (deepMerge (objGet bkvs k) v)) rest

end

/-- JavaScript single-character string split (s.split(sep)): the list of
chunks between occurrences of sep; splitting the empty string yields one
empty chunk, like JavaScript. -/
def splitCharOn (sep : Char) : List Char → List (List Char)
  | [] => [[]]
  | c :: rest =>
    match splitCharOn sep rest with
    | [] => [[c]]
    | h :: t => if c = sep then [] :: h :: t else (c :: h) :: t

def splitStrOn (sep : Char) (s : String) : List String :=
  (splitCharOn sep s.data).map String.mk

/-- JavaScript array join with a single-character separator. -/
def joinWith (sep : Char) : List (List Char) → List Char
  | [] => []
  | [l] => l
  | l :: rest => l ++ sep :: joinWith sep rest

/-- prefix.join of the source, with separator dot. -/
def dotJoin (l : List String) : String := String.mk (joinWith '.' (l.map String.data))

mutual

/-- collectPaths (src/lib/utils.ts lines 73-83): scalar leaves yield the
dot-joined prefix; arrays recurse with the stringified index appended;
mappings recurse entry by entry in stored order.  On the runtime value
undefined the source would throw (Object.entries(undefined)); that case is
unreachable on well-formed input and modelled as the empty list. -/
def collectPaths (v : JsonValue) (pre : List String) : List String :=
  match v with
  | .null | .bool _ | .num _ | .nan | .str _ => [dotJoin pre]
  | .arr xs => collectPathsArr xs 0 pre
  | .obj kvs => collectPathsObj kvs pre
  | .undef => []

def collectPathsArr (xs : JsonArr) (i : Nat) (pre : List String) : List String :=
  match xs with
  | .nil => []
  | .cons x rest => collectPaths x (pre ++ [natStr i]) ++ collectPathsArr rest (i + 1) pre

def collectPathsObj (kvs : JsonObj) (pre : List String) : List String :=
  match kvs with
  | .nil => []
  | .cons k v rest => collectPaths v (pre ++ [k]) ++ collectPathsObj rest pre

end

/-- The inner loop of computeImportant: for i = 1 .. segments.length, the
dot-join of the first i segments. -/
def prefixJoins (segments : List String) : List String :=
  (List.range segments.length).map (fun i => dotJoin (segments.take (i + 1)))

/-- computeImportant (src/App.svelte lines 110-121): every raw path from
collectPaths is skipped when empty, otherwise split on dots and all its
dot-joined nonempty prefixes are registered.  The JavaScript Set is
modelled by a list; only membership is ever consulted. -/
def computeImportant (v : JsonValue) : List String :=
  (collectPaths v []).flatMap (fun path =>
    if path = "" then [] else prefixJoins (splitStrOn '.' path))

mutual

/-- Modelled from the spec sentence for collectLeafPaths: every path from
the root to each scalar leaf, in pre-order (mapping keys in stored order,
array elements in index order), paired with the leaf value; used to state
what the string output of collectPaths denotes. -/
def collectLeaves (v : JsonValue) : List (JsonPath × JsonValue) :=
  match v with
  | .null | .bool _ | .num _ | .nan | .str _ => [([], v)]
  | .arr xs => collectLeavesArr xs 0
  | .obj kvs => collectLeavesObj kvs
  | .undef => []

def collectLeavesArr (xs : JsonArr) (i : Nat) : List (JsonPath × JsonValue) :=
  match xs with
  | .nil => []
  | .cons x rest =>
    (collectLeaves x).map (fun pr => (.idx i :: pr.1, pr.2)) ++ collectLeavesArr rest (i + 1)

def collectLeavesObj (kvs : JsonObj) : List (JsonPath × JsonValue) :=
  match kvs with
  | .nil => []
  | .cons k v rest =>
    (collectLeaves v).map (fun pr => (.key k :: pr.1, pr.2)) ++ collectLeavesObj rest

end

def leafPaths (v : JsonValue) : List JsonPath := (collectLeaves v).map Prod.fst

/-- The set of strings the claim for computeImportant describes: for each
leaf path, the dot-joins of all its segment prefixes, the empty prefix and
the full path included ("the path itself plus every proper prefix"). -/
def claimImportantAll (v : JsonValue) : List String :=
  (leafPaths v).flatMap (fun p =>
    (List.range (p.length + 1)).map (fun i => dotJoin ((p.take i).map segKey)))

/-- The amended description: only the nonempty prefixes (lengths 1 to the
full path), of the nonempty leaf paths. -/
def claimImportantPos (v : JsonValue) : List String :=
  (leafPaths v).flatMap (fun p =>
    (List.range p.length).map (fun i => dotJoin ((p.take (i + 1)).map segKey)))

/-- A mapping key usable in dot-joined paths without ambiguity: nonempty
and dot-free.  Stringified array indices always satisfy this. -/
def goodKey (s : String) : Bool := !(s.data.isEmpty) && s.data.all (fun c => c != '.')

mutual

/-- All mapping keys in the tree are good (nonempty, dot-free). -/
def goodKeys : JsonValue → Bool
  | .null | .bool _ | .num _ | .nan | .str _ | .undef => true
  | .arr xs => goodKeysArr xs
  | .obj kvs => goodKeysObj kvs

def goodKeysArr : JsonArr → Bool
  | .nil => true
  | .cons x xs => goodKeys x && goodKeysArr xs

def goodKeysObj : JsonObj → Bool
  | .nil => true
  | .cons k v rest => goodKey k && goodKeys v && goodKeysObj rest

end

/-- The paths on which setValue actually writes through and getValue reads
back: every segment matches the container kind in the original tree
(numeric on arrays, string on mappings), and every non-final step lands on
an existing element / present key.  The final segment may address a fresh
mapping key or any array index. -/
def writable : JsonValue → JsonPath → Bool
  | _, [] => true
  | .arr xs, .idx n :: rest => writable (arrGet xs n) rest
  | .obj kvs, .key s :: rest => writable (objGet kvs s) rest
  | _, _ :: _ => false

/-- Two paths address disjoint subtrees: they share a common (literal)
segment prefix and then continue with segments that denote different
property keys.  Comparing the diverging segments by their coerced property
key avoids counting an array index and its decimal string (which alias the
same mapping property) as distinct. -/
def divergent : JsonPath → JsonPath → Bool
  | a :: p, b :: q => if a = b then divergent p q else segKey a != segKey b
  | _, _ => false

/-- ASCII whitespace, the model of the characters JavaScript trim and blank
lines deal with in this code base (only spaces and line controls occur). -/
def isJsSpace (c : Char) : Bool :=
  c = ' ' || c = '\t' || c = '\n' || c = '\r' || c = '\x0b' || c = '\x0c'

def trimChars (l : List Char) : List Char :=
  ((l.dropWhile isJsSpace).reverse.dropWhile isJsSpace).reverse

/-- JavaScript String.prototype.trim (over the ASCII whitespace model). -/
def jsTrim (s : String) : String := String.mk (trimChars s.data)

def digitsToNat (l : List Char) : Nat :=
  l.foldl (fun a c => a * 10 + (c.toNat - 48)) 0

/-- Exact rational denoted by a sign, integer digits, fraction digits and a
decimal exponent (the value of a JavaScript decimal numeric literal,
modelled exactly rather than as a float). -/
def decimalValue (sg : Int) (ip fp : List Char) (ex : Int) : Rat :=
  let mant : Int := sg * (digitsToNat (ip ++ fp) : Int)
  let p : Int := ex - (fp.length : Int)
  if fp.length = 0 && ex = 0 then (mant : Rat)
  else if 0 ≤ p then (mant : Rat) * ((10 ^ p.toNat : Nat) : Rat)
  else ((mant : Rat)) / ((10 ^ (-p).toNat : Nat) : Rat)

/-- Model of JavaScript Number() on the already-trimmed strings this code
feeds it, covering decimal literals: optional sign, digits with optional
fraction, optional decimal exponent; the empty string converts to 0; none
is NaN.  (Hexadecimal and Infinity forms do not occur in this
application's inputs; the theorems over commitArrayChanges and
handleNumberChange are parametric in the number parser.) -/
def jsNumber (s : String) : Option Rat :=
  match s.data with
  | [] => some 0
  | cs =>
    let sgPair : Int × List Char :=
      match cs with
      | '-' :: t => (-1, t)
      | '+' :: t => (1, t)
      | t => (1, t)
    let sg := sgPair.1
    let cs1 := sgPair.2
    let ip := cs1.takeWhile Char.isDigit
    let r1 := cs1.dropWhile Char.isDigit
    let fpPair : List Char × List Char :=
      match r1 with
      | '.' :: t => (t.takeWhile Char.isDigit, t.dropWhile Char.isDigit)
      | _ => ([], r1)
    let fp := fpPair.1
    let r2 := fpPair.2
    if ip = [] && fp = [] then none
    else
      match r2 with
      | [] => some (decimalValue sg ip fp 0)
      | e :: t =>
        if e = 'e' || e = 'E' then
          let esgPair : Int × List Char :=
            match t with
            | '-' :: u => (-1, u)
            | '+' :: u => (1, u)
            | u => (1, u)
          let ed := esgPair.2.takeWhile Char.isDigit
          let r3 := esgPair.2.dropWhile Char.isDigit
          if ed = [] || r3 ≠ [] then none
          else some (decimalValue sg ip fp (esgPair.1 * (digitsToNat ed : Int)))
        else none

def listToArr : List JsonValue → JsonArr
  | [] => .nil
  | x :: xs => .cons x (listToArr xs)

/-- The line preprocessing of commitArrayChanges (JsonEditor.svelte lines
49-52): split on newlines, trim each line, keep nonempty lines. -/
def commitLines (text : String) : List String :=
  ((splitStrOn '\n' text).map jsTrim).filter (fun l => l ≠ "")

/-- The per-line parse of commitArrayChanges (lines 54-65): the literals
true/false, then Number (kept when not NaN), then the structured-literal
parser (JSON.parse, abstracted as jsonF, none meaning a parse error),
falling back to the raw line. -/
def parseLine (numF : String → Option Rat) (jsonF : String → Option JsonValue)
    (line : String) : JsonValue :=
  if line = "true" then .bool true
  else if line = "false" then .bool false
  else
    match numF line with
    | some q => .num q
    | none =>
      match jsonF line with
      | some v => v
      | none => .str line

/-- commitArrayChanges (JsonEditor.svelte lines 47-67): the list of
(path, value) callbacks the handler emits for a committed textarea text;
the source calls onUpdate exactly once, with the whole re-parsed array. -/
def commitArrayChanges (numF : String → Option Rat) (jsonF : String → Option JsonValue)
    (path : JsonPath) (text : String) : List (JsonPath × JsonValue) :=
  [(path, .arr (listToArr ((commitLines text).map (parseLine numF jsonF))))]

/-- Modelled from the claim wording for the textarea commit: split the text
into lines, drop blank (whitespace-only) lines, and take each remaining
line trimmed. -/
def specLines (text : String) : List String :=
  ((splitStrOn '\n' text).filter (fun l => !(l.data.all isJsSpace))).map jsTrim

/-- handleNumberChange (JsonEditor.svelte lines 26-30): the callbacks the
change handler emits for the entered text.  The source always calls
onUpdate once: with null when the field is empty, otherwise with
Number(text), which is NaN when the text does not parse. -/
def handleNumberChange (numF : String → Option Rat) (path : JsonPath)
    (text : String) : List (JsonPath × JsonValue) :=
  [(path, if text = "" then .null
          else match numF text with
               | some q => .num q
               | none => .nan)]

inductive RunMode where
  | buildSpecLib : RunMode
  | searchDia : RunMode
  deriving DecidableEq

/-- ConfigState (src/lib/types.ts, as used by App.svelte): defaults and
current trees, the important path set, the source tag, and the path
bookkeeping. -/
structure ConfigState where
  defaults : JsonValue
  current : JsonValue
  important : List String
  source : String
  lastLoadedPath : Option String
  persistedPath : Option String
  deriving DecidableEq

/-- JSON.parse(JSON.stringify(v)), the clone helper of App.svelte line 55:
the identity on well-formed values (no undefined, no NaN). -/
def jsonClone (v : JsonValue) : JsonValue := v

/-- handleUpdate (src/App.svelte lines 214-220): if the targeted mode has a
state, replace only its current field (spreading the rest) and only the
targeted mode's entry of configStates. -/
def handleUpdate (states : RunMode → Option ConfigState) (mode : RunMode)
    (path : JsonPath) (value : JsonValue) : RunMode → Option ConfigState :=
  match states mode with
  | none => states
  | some st =>
    fun m => if m = mode then some { st with current := setValue st.current path value }
             else states m

/-- The state transition of loadConfigFromFile (src/App.svelte lines
226-241): merge the loaded file onto the defaults and record the chosen
file path; everything else is spread unchanged. -/
def loadConfigFromFile (states : RunMode → Option ConfigState) (mode : RunMode)
    (loaded : JsonValue) (selected : String) : RunMode → Option ConfigState :=
  match states mode with
  | none => states
  | some st =>
    fun m => if m = mode then
               some { st with current := deepMerge st.defaults loaded,
                              lastLoadedPath := some selected }
             else states m

/-- resetToDefaults (src/App.svelte lines 259-265). -/
def resetToDefaults (states : RunMode → Option ConfigState) (mode : RunMode) :
    RunMode → Option ConfigState :=
  match states mode with
  | none => states
  | some st =>
    fun m => if m = mode then
               some { st with current := jsonClone st.defaults, lastLoadedPath := none }
             else states m


/-! ## Induction principles

The induction tactic does not handle mutual inductives directly, so we
provide the needed eliminators by structural recursion. -/

def JsonObj.inductionOn {motive : JsonObj → Prop} (o : JsonObj)
    (nil : motive .nil)
    (cons : ∀ k v rest, motive rest → motive (.cons k v rest)) : motive o :=
  match o with
  | .nil => nil
  | .cons k v rest => cons k v rest (rest.inductionOn nil cons)

def JsonArr.inductionOn {motive : JsonArr → Prop} (a : JsonArr)
    (nil : motive .nil)
    (cons : ∀ x xs, motive xs → motive (.cons x xs)) : motive a :=
  match a with
  | .nil => nil
  | .cons x xs => cons x xs (xs.inductionOn nil cons)

mutual

def jsonInductionVal (P : JsonValue → Prop) (Q : JsonArr → Prop) (R : JsonObj → Prop)
    (hnull : P .null) (hbool : ∀ b, P (.bool b)) (hnum : ∀ q, P (.num q)) (hnan : P .nan)
    (hstr : ∀ s, P (.str s)) (hundef : P .undef)
    (harr : ∀ xs, Q xs → P (.arr xs)) (hobj : ∀ kvs, R kvs → P (.obj kvs))
    (hqnil : Q .nil) (hqcons : ∀ x xs, P x → Q xs → Q (.cons x xs))
    (hrnil : R .nil) (hrcons : ∀ k v rest, P v → R rest → R (.cons k v rest)) :
    ∀ v, P v
  | .null => hnull
  | .bool b => hbool b
  | .num q => hnum q
  | .nan => hnan
  | .str s => hstr s
  | .undef => hundef
  | .arr xs => harr xs (jsonInductionArr P Q R hnull hbool hnum hnan hstr hundef harr hobj
      hqnil hqcons hrnil hrcons xs)
  | .obj kvs => hobj kvs (jsonInductionObj P Q R hnull hbool hnum hnan hstr hundef harr hobj
      hqnil hqcons hrnil hrcons kvs)

def jsonInductionArr (P : JsonValue → Prop) (Q : JsonArr → Prop) (R : JsonObj → Prop)
    (hnull : P .null) (hbool : ∀ b, P (.bool b)) (hnum : ∀ q, P (.num q)) (hnan : P .nan)
    (hstr : ∀ s, P (.str s)) (hundef : P .undef)
    (harr : ∀ xs, Q xs → P (.arr xs)) (hobj : ∀ kvs, R kvs → P (.obj kvs))
    (hqnil : Q .nil) (hqcons : ∀ x xs, P x → Q xs → Q (.cons x xs))
    (hrnil : R .nil) (hrcons : ∀ k v rest, P v → R rest → R (.cons k v rest)) :
    ∀ xs, Q xs
  | .nil => hqnil
  | .cons x xs => hqcons x xs
      (jsonInductionVal P Q R hnull hbool hnum hnan hstr hundef harr hobj
        hqnil hqcons hrnil hrcons x)
      (jsonInductionArr P Q R hnull hbool hnum hnan hstr hundef harr hobj
        hqnil hqcons hrnil hrcons xs)

def jsonInductionObj (P : JsonValue → Prop) (Q : JsonArr → Prop) (R : JsonObj → Prop)
    (hnull : P .null) (hbool : ∀ b, P (.bool b)) (hnum : ∀ q, P (.num q)) (hnan : P .nan)
    (hstr : ∀ s, P (.str s)) (hundef : P .undef)
    (harr : ∀ xs, Q xs → P (.arr xs)) (hobj : ∀ kvs, R kvs → P (.obj kvs))
    (hqnil : Q .nil) (hqcons : ∀ x xs, P x → Q xs → Q (.cons x xs))
    (hrnil : R .nil) (hrcons : ∀ k v rest, P v → R rest → R (.cons k v rest)) :
    ∀ kvs, R kvs
  | .nil => hrnil
  | .cons k v rest => hrcons k v rest
      (jsonInductionVal P Q R hnull hbool hnum hnan hstr hundef harr hobj
        hqnil hqcons hrnil hrcons v)
      (jsonInductionObj P Q R hnull hbool hnum hnan hstr hundef harr hobj
        hqnil hqcons hrnil hrcons rest)

end

/-! ## Basic lemmas about the path algebra -/

theorem getValue_nil (v : JsonValue) : getValue v [] = v := rfl

theorem getValue_cons (v : JsonValue) (s : Seg) (p : JsonPath) :
    getValue v (s :: p) = getValue (getStep v s) p := rfl

theorem getValue_undef (p : JsonPath) : getValue .undef p = .undef := by
  induction p with
  | nil => rfl
  | cons s p ih => simpa [getValue_cons, getStep] using ih

theorem getValue_of_isScalar (v : JsonValue) (hv : isScalar v = true) (p : JsonPath) :
    getValue v p = v := by
  induction p with
  | nil => rfl
  | cons s p ih =>
    rw [getValue_cons]
    have hstep : getStep v s = v := by
      cases v <;> simp_all [isScalar, getStep]
    rw [hstep]
    exact ih

theorem setValue_undef (p : JsonPath) (hp : p ≠ []) (x : JsonValue) :
    setValue .undef p x = .undef := by
  cases p with
  | nil => exact absurd rfl hp
  | cons s rest => rfl

theorem objGet_insert_same (kvs : JsonObj) (k : String) (v : JsonValue) :
    objGet (objInsert kvs k v) k = v := by
  induction kvs using JsonObj.inductionOn with
  | nil => simp [objInsert, objGet]
  | cons k1 v1 rest ih =>
    by_cases h : k1 = k <;> simp [objInsert, objGet, h, ih]

theorem objGet_insert_ne (kvs : JsonObj) (k k1 : String) (v : JsonValue) (h : k1 ≠ k) :
    objGet (objInsert kvs k v) k1 = objGet kvs k1 := by
  induction kvs using JsonObj.inductionOn with
  | nil => simp [objInsert, objGet, if_neg (Ne.symm h)]
  | cons k2 v2 rest ih =>
    by_cases h2 : k2 = k
    · subst h2
      simp [objInsert, objGet, if_neg (Ne.symm h)]
    · simp [objInsert, if_neg h2, objGet, ih]

theorem hasKey_insert (kvs : JsonObj) (k k1 : String) (v : JsonValue) :
    hasKey (objInsert kvs k v) k1 = (decide (k = k1) || hasKey kvs k1) := by
  induction kvs using JsonObj.inductionOn with
  | nil => simp [objInsert, hasKey]
  | cons k2 v2 rest ih =>
    by_cases h2 : k2 = k
    · subst h2
      simp [objInsert, hasKey]
    · simp only [objInsert, if_neg h2, hasKey, ih]
      cases h3 : decide (k2 = k1) <;> cases h4 : decide (k = k1) <;> simp_all

theorem objGet_of_hasKey_false (kvs : JsonObj) (k : String) (h : hasKey kvs k = false) :
    objGet kvs k = .undef := by
  induction kvs using JsonObj.inductionOn with
  | nil => rfl
  | cons k1 v1 rest ih =>
    simp only [hasKey, Bool.or_eq_false_iff, decide_eq_false_iff_not] at h
    simp [objGet, h.1, ih h.2]

theorem arrGet_set_same (xs : JsonArr) (n : Nat) (v : JsonValue) :
    arrGet (arrSet xs n v) n = v := by
  induction xs using JsonArr.inductionOn generalizing n with
  | nil =>
    induction n with
    | zero => rfl
    | succ m ihm => simpa [arrSet, arrGet] using ihm
  | cons x rest ih =>
    cases n with
    | zero => rfl
    | succ m => simpa [arrSet, arrGet] using ih m

theorem arrGet_nil (n : Nat) : arrGet .nil n = .undef := by cases n <;> rfl

theorem arrGet_set_ne (xs : JsonArr) (n m : Nat) (v : JsonValue) (h : m ≠ n) :
    arrGet (arrSet xs n v) m = arrGet xs m := by
  induction xs using JsonArr.inductionOn generalizing n m with
  | nil =>
    induction n generalizing m with
    | zero =>
      cases m with
      | zero => exact absurd rfl h
      | succ m1 => simp [arrSet, arrGet, arrGet_nil]
    | succ n1 ihn =>
      cases m with
      | zero => simp [arrSet, arrGet]
      | succ m1 =>
        simpa [arrSet, arrGet, arrGet_nil] using ihn m1 (by omega)
  | cons x rest ih =>
    cases n with
    | zero =>
      cases m with
      | zero => exact absurd rfl h
      | succ m1 => simp [arrSet, arrGet]
    | succ n1 =>
      cases m with
      | zero => simp [arrSet, arrGet]
      | succ m1 => simpa [arrSet, arrGet] using ih n1 m1 (by omega)

theorem arrGet_oob (xs : JsonArr) (n : Nat) (h : arrLen xs ≤ n) : arrGet xs n = .undef := by
  induction xs using JsonArr.inductionOn generalizing n with
  | nil => exact arrGet_nil n
  | cons x rest ih =>
    cases n with
    | zero => simp [arrLen] at h
    | succ m =>
      simp only [arrLen] at h
      simpa [arrGet] using ih m (by omega)

/-- setValue on a mapping always inserts at the coerced key the recursive
update of the stored value; the two branches of the source (final segment
or not) agree with this form because setValue with an empty path returns
the new value. -/
theorem setValue_obj (kvs : JsonObj) (h : Seg) (rest : JsonPath) (x : JsonValue) :
    setValue (.obj kvs) (h :: rest) x
      = .obj (objInsert kvs (segKey h) (setValue (objGet kvs (segKey h)) rest x)) := by
  cases rest <;> simp [setValue]

/-! ## Claim C1 (corrected): no mapping is synthesized at a missing
intermediate key -/

/-- C1 counterexample: setting the previously-absent nested path a.b on an
empty mapping does not synthesize an intermediate mapping; it stores the
undefined marker under a, and the written value cannot be read back at the
full path. -/
theorem setValue_no_synthesis_counterexample :
    setValue (.obj .nil) [.key "a", .key "b"] (.num 1) = .obj (.cons "a" .undef .nil)
      ∧ getValue (setValue (.obj .nil) [.key "a", .key "b"] (.num 1)) [.key "a", .key "b"]
          ≠ .num 1 := by
  decide

/-- C1 (amended): when an intermediate string segment addresses a key
absent from a Mapping and further segments remain, setValue stores the
JavaScript value undefined at that key (no fresh empty Mapping is
synthesized), and reading the full path back from the result yields
undefined, not the written value. -/
theorem setValue_missing_intermediate (kvs : JsonObj) (s : String) (rest : JsonPath)
    (x : JsonValue) (hrest : rest ≠ []) (habs : hasKey kvs s = false) :
    setValue (.obj kvs) (.key s :: rest) x = .obj (objInsert kvs s .undef)
      ∧ getValue (setValue (.obj kvs) (.key s :: rest) x) (.key s :: rest) = .undef := by
  have hget : objGet kvs s = .undef := objGet_of_hasKey_false kvs s habs
  have hset : setValue (.obj kvs) (.key s :: rest) x = .obj (objInsert kvs s .undef) := by
    rw [setValue_obj]
    simp only [segKey, hget, setValue_undef rest hrest]
  refine ⟨hset, ?_⟩
  rw [hset, getValue_cons]
  have hstep : getStep (.obj (objInsert kvs s .undef)) (.key s) = .undef := by
    simp [getStep, objGet_insert_same]
  rw [hstep, getValue_undef]

theorem setValue_missing_intermediate_witness :
    ([Seg.key "b"] ≠ ([] : JsonPath))
      ∧ hasKey .nil "a" = false
      ∧ setValue (.obj .nil) [.key "a", .key "b"] (.num 1) = .obj (.cons "a" .undef .nil)
      ∧ getValue (setValue (.obj .nil) [.key "a", .key "b"] (.num 1)) [.key "a", .key "b"]
          = .undef :=
  ⟨by decide, rfl,
   (setValue_missing_intermediate .nil "a" [.key "b"] (.num 1) (by decide) rfl).1,
   (setValue_missing_intermediate .nil "a" [.key "b"] (.num 1) (by decide) rfl).2⟩

/-! ## Claim C2 (corrected): how getValue resolves paths -/

/-- C2 counterexample: when a scalar is encountered before the path is
exhausted, getValue returns that scalar, not undefined (lines 10-12 of the
source return the accumulator). -/
theorem getValue_scalar_counterexample :
    getValue (.num 5) [.key "a"] = .num 5 ∧ JsonValue.num 5 ≠ .undef := by
  decide

/-- C2 (amended): getValue is total and returns undefined as soon as a
segment kind does not match the container kind, an array index is out of
range, or a mapping key is absent; but when a scalar is encountered before
the path is exhausted the scalar itself is returned (the remaining
segments are ignored). -/
theorem getValue_resolution :
    (∀ (v : JsonValue) (p : JsonPath), isScalar v = true → getValue v p = v)
    ∧ (∀ (xs : JsonArr) (s : String) (rest : JsonPath),
        getValue (.arr xs) (.key s :: rest) = .undef)
    ∧ (∀ (kvs : JsonObj) (n : Nat) (rest : JsonPath),
        getValue (.obj kvs) (.idx n :: rest) = .undef)
    ∧ (∀ (xs : JsonArr) (n : Nat) (rest : JsonPath), arrLen xs ≤ n →
        getValue (.arr xs) (.idx n :: rest) = .undef)
    ∧ (∀ (kvs : JsonObj) (s : String) (rest : JsonPath), hasKey kvs s = false →
        getValue (.obj kvs) (.key s :: rest) = .undef) := by
  refine ⟨fun v p hv => getValue_of_isScalar v hv p, ?_, ?_, ?_, ?_⟩
  · intro xs s rest
    rw [getValue_cons]
    simp [getStep, getValue_undef]
  · intro kvs n rest
    rw [getValue_cons]
    simp [getStep, getValue_undef]
  · intro xs n rest h
    rw [getValue_cons]
    simp [getStep, arrGet_oob xs n h, getValue_undef]
  · intro kvs s rest h
    rw [getValue_cons]
    simp [getStep, objGet_of_hasKey_false kvs s h, getValue_undef]

theorem getValue_resolution_witness :
    getValue (.num 3) [.key "a"] = .num 3
      ∧ getValue (.arr .nil) [.idx 2] = .undef
      ∧ getValue (.obj .nil) [.key "a"] = .undef :=
  ⟨getValue_resolution.1 (.num 3) [.key "a"] rfl,
   getValue_resolution.2.2.2.1 .nil 2 [] (by decide),
   getValue_resolution.2.2.2.2 .nil "a" [] rfl⟩

/-! ## Claim C3 (corrected): write-then-read round trip -/

/-- C3 counterexample: the round trip fails when setValue cannot write (a
scalar root with a nonempty path): the read returns the untouched scalar,
not the written value. -/
theorem roundtrip_counterexample :
    getValue (setValue (.num 5) [.key "a"] (.num 1)) [.key "a"] = .num 5
      ∧ JsonValue.num 5 ≠ .num 1 := by
  decide

/-- C3 (amended): the write-then-read round trip getValue (setValue v p x)
p = x holds exactly on writable paths: every segment matches the container
kind along the path in v (numeric on arrays, string on mappings) and every
non-final step lands on an existing element or present key; the final
segment may be fresh. -/
theorem setValue_getValue_roundtrip : ∀ (p : JsonPath) (v x : JsonValue),
    writable v p = true → getValue (setValue v p x) p = x := by
  intro p
  induction p with
  | nil => intro v x _; rfl
  | cons a p1 ih =>
    intro v x h
    cases a with
    | idx n =>
      cases v with
      | arr xs =>
        have h1 : writable (arrGet xs n) p1 = true := by simpa [writable] using h
        show getValue (.arr (arrSet xs n (setValue (arrGet xs n) p1 x))) (.idx n :: p1) = x
        rw [getValue_cons]
        simp only [getStep, arrGet_set_same]
        exact ih _ _ h1
      | null => simp [writable] at h
      | bool b => simp [writable] at h
      | num q => simp [writable] at h
      | nan => simp [writable] at h
      | str s => simp [writable] at h
      | obj kvs => simp [writable] at h
      | undef => simp [writable] at h
    | key s =>
      cases v with
      | obj kvs =>
        have h1 : writable (objGet kvs s) p1 = true := by simpa [writable] using h
        rw [setValue_obj, getValue_cons]
        simp only [segKey, getStep, objGet_insert_same]
        exact ih _ _ h1
      | null => simp [writable] at h
      | bool b => simp [writable] at h
      | num q => simp [writable] at h
      | nan => simp [writable] at h
      | str s2 => simp [writable] at h
      | arr xs => simp [writable] at h
      | undef => simp [writable] at h

theorem setValue_getValue_roundtrip_witness :
    writable (.obj (.cons "a" (.arr (.cons (.num 0) .nil)) .nil)) [.key "a", .idx 0] = true
      ∧ getValue (setValue (.obj (.cons "a" (.arr (.cons (.num 0) .nil)) .nil))
          [.key "a", .idx 0] (.str "z")) [.key "a", .idx 0] = .str "z" :=
  ⟨by decide, setValue_getValue_roundtrip [.key "a", .idx 0] _ _ (by decide)⟩

/-! ## Claim C5 (confirmed): structural sharing frame property -/

/-- C5: a subtree addressed by a path that diverges from the written path
(equal up to some point, then a segment with a different property key) is
read back unchanged from the result of setValue: only containers along the
written path are touched, all sibling subtrees are preserved. -/
theorem setValue_frame : ∀ (p q : JsonPath), divergent p q = true →
    ∀ (v x : JsonValue), getValue (setValue v p x) q = getValue v q := by
  intro p
  induction p with
  | nil => intro q h; simp [divergent] at h
  | cons a p1 ih =>
    intro q h v x
    cases q with
    | nil => simp [divergent] at h
    | cons b q1 =>
      rw [getValue_cons, getValue_cons]
      by_cases hab : a = b
      · subst hab
        have hd : divergent p1 q1 = true := by simpa [divergent] using h
        cases v with
        | null => rfl
        | bool b2 => rfl
        | num q2 => rfl
        | nan => rfl
        | str s2 => rfl
        | undef => rfl
        | arr xs =>
          cases a with
          | key s => rfl
          | idx n =>
            show getValue (getStep (.arr (arrSet xs n (setValue (arrGet xs n) p1 x))) (.idx n)) q1
                = getValue (getStep (.arr xs) (.idx n)) q1
            simp only [getStep, arrGet_set_same]
            exact ih q1 hd (arrGet xs n) x
        | obj kvs =>
          rw [setValue_obj]
          cases a with
          | key s =>
            simp only [getStep, segKey, objGet_insert_same]
            exact ih q1 hd (objGet kvs s) x
          | idx n => simp only [getStep]
      · have hkey : segKey a ≠ segKey b := by
          simp only [divergent, if_neg hab, bne_iff_ne, ne_eq] at h
          exact h
        cases v with
        | null => rfl
        | bool b2 => rfl
        | num q2 => rfl
        | nan => rfl
        | str s2 => rfl
        | undef => rfl
        | arr xs =>
          cases a with
          | key s => rfl
          | idx n =>
            cases b with
            | key t =>
              show getValue
                    (getStep (.arr (arrSet xs n (setValue (arrGet xs n) p1 x))) (.key t)) q1
                  = getValue (getStep (.arr xs) (.key t)) q1
              simp only [getStep]
            | idx m =>
              have hnm : m ≠ n := fun hmn => hab (by rw [hmn])
              show getValue (getStep (.arr (arrSet xs n (setValue (arrGet xs n) p1 x))) (.idx m)) q1
                  = getValue (getStep (.arr xs) (.idx m)) q1
              simp only [getStep, arrGet_set_ne xs n m _ hnm]
        | obj kvs =>
          rw [setValue_obj]
          cases b with
          | idx m => simp only [getStep]
          | key t =>
            have ht : t ≠ segKey a := fun hh => hkey (by simp [segKey, hh])
            simp only [getStep, objGet_insert_ne kvs (segKey a) t _ ht]

theorem setValue_frame_witness :
    divergent [Seg.key "a", Seg.key "b"] [Seg.key "a", Seg.key "c"] = true
      ∧ getValue
          (setValue (.obj (.cons "a" (.obj (.cons "b" (.num 1) (.cons "c" (.num 2) .nil))) .nil))
            [.key "a", .key "b"] (.num 9))
          [.key "a", .key "c"]
        = getValue (.obj (.cons "a" (.obj (.cons "b" (.num 1) (.cons "c" (.num 2) .nil))) .nil))
            [.key "a", .key "c"] :=
  ⟨by decide, setValue_frame [.key "a", .key "b"] [.key "a", .key "c"] (by decide) _ _⟩

/-! ## Claim C10 (confirmed): the host update handler replaces only the
current tree of the targeted mode -/

/-- C10: handleUpdate replaces exactly the current field of the targeted
mode's ConfigState with setValue applied to the previous current; the
defaults, important set, source and path bookkeeping of that state are
unchanged, and the other mode's entire state is unchanged. -/
theorem handleUpdate_frame (states : RunMode → Option ConfigState) (mode : RunMode)
    (path : JsonPath) (value : JsonValue) (st : ConfigState) (h : states mode = some st) :
    handleUpdate states mode path value mode
        = some { st with current := setValue st.current path value }
      ∧ (∀ st2, handleUpdate states mode path value mode = some st2 →
          st2.current = setValue st.current path value
            ∧ st2.defaults = st.defaults
            ∧ st2.important = st.important
            ∧ st2.source = st.source
            ∧ st2.lastLoadedPath = st.lastLoadedPath
            ∧ st2.persistedPath = st.persistedPath)
      ∧ (∀ m, m ≠ mode → handleUpdate states mode path value m = states m) := by
  refine ⟨?_, ?_, ?_⟩
  · simp [handleUpdate, h]
  · intro st2 h2
    simp [handleUpdate, h] at h2
    subst h2
    simp
  · intro m hm
    simp [handleUpdate, h, if_neg hm]

theorem handleUpdate_frame_witness :
    (fun (_ : RunMode) => some (ConfigState.mk .null (.obj .nil) ["a"] "binary" none none))
        RunMode.buildSpecLib
      = some (ConfigState.mk .null (.obj .nil) ["a"] "binary" none none)
      ∧ handleUpdate
          (fun _ => some (ConfigState.mk .null (.obj .nil) ["a"] "binary" none none))
          RunMode.buildSpecLib [.key "x"] (.num 2) RunMode.buildSpecLib
        = some (ConfigState.mk .null (.obj (.cons "x" (.num 2) .nil)) ["a"] "binary" none none) :=
  ⟨rfl,
   (handleUpdate_frame (fun _ => some (ConfigState.mk .null (.obj .nil) ["a"] "binary" none none))
      RunMode.buildSpecLib [.key "x"] (.num 2)
      (ConfigState.mk .null (.obj .nil) ["a"] "binary" none none) rfl).1⟩

/-! ## Claim C4 (confirmed): deepMerge on two mappings -/

def isArr : JsonValue → Bool
  | .arr _ => true
  | _ => false

theorem deepMerge_undef (ov : JsonValue) : deepMerge .undef ov = ov := by
  cases ov <;> rfl

theorem deepMerge_replace (b ov : JsonValue) (h : (isScalar ov || isArr ov) = true) :
    deepMerge b ov = ov := by
  cases ov <;> simp [isScalar, isArr] at h ⊢ <;> rfl

theorem mergeInto_objGet_notin (okvs : JsonObj) : ∀ (bkvs acc : JsonObj) (k : String),
    hasKey okvs k = false → objGet (mergeInto bkvs acc okvs) k = objGet acc k := by
  induction okvs using JsonObj.inductionOn with
  | nil => intro bkvs acc k _; rfl
  | cons k2 v2 rest ih =>
    intro bkvs acc k h
    simp only [hasKey, Bool.or_eq_false_iff, decide_eq_false_iff_not] at h
    simp only [mergeInto]
    rw [ih bkvs _ k h.2, objGet_insert_ne _ _ _ _ (Ne.symm h.1)]

theorem mergeInto_hasKey (okvs : JsonObj) : ∀ (bkvs acc : JsonObj) (k : String),
    hasKey (mergeInto bkvs acc okvs) k = (hasKey acc k || hasKey okvs k) := by
  induction okvs using JsonObj.inductionOn with
  | nil => intro bkvs acc k; simp [mergeInto, hasKey]
  | cons k2 v2 rest ih =>
    intro bkvs acc k
    simp only [mergeInto, hasKey, ih, hasKey_insert]
    cases h2 : decide (k2 = k) <;> cases h3 : hasKey acc k <;> simp

theorem mergeInto_objGet_in (okvs : JsonObj) : ∀ (bkvs acc : JsonObj) (k : String),
    wfObj okvs = true → hasKey okvs k = true →
    objGet (mergeInto bkvs acc okvs) k = deepMerge (objGet bkvs k) (objGet okvs k) := by
  induction okvs using JsonObj.inductionOn with
  | nil => intro bkvs acc k _ h; simp [hasKey] at h
  | cons k2 v2 rest ih =>
    intro bkvs acc k hw h
    simp only [wfObj, Bool.and_eq_true, Bool.not_eq_true'] at hw
    by_cases hk : k2 = k
    · subst hk
      have hrest : hasKey rest k2 = false := hw.1.1
      simp only [mergeInto]
      rw [mergeInto_objGet_notin rest bkvs _ k2 hrest, objGet_insert_same]
      simp [objGet]
    · have hrest : hasKey rest k = true := by
        simp only [hasKey, Bool.or_eq_true, decide_eq_true_eq] at h
        exact h.resolve_left hk
      simp only [mergeInto]
      rw [ih bkvs _ k hw.2 hrest]
      simp [objGet, if_neg hk]

/-- C4: merging two mappings keeps every base-only key with its base value
unchanged, gives every overlay key the recursive merge of the base value
with the overlay value (the overlay value itself when the base lacks the
key, and outright when the overlay value is a scalar or an array), and
introduces no other keys. -/
theorem deepMerge_mapping_spec (bkvs okvs : JsonObj) (ho : wfObj okvs = true) :
    ∃ rkvs, deepMerge (.obj bkvs) (.obj okvs) = .obj rkvs
      ∧ (∀ k, hasKey rkvs k = (hasKey bkvs k || hasKey okvs k))
      ∧ (∀ k, hasKey bkvs k = true → hasKey okvs k = false →
          objGet rkvs k = objGet bkvs k)
      ∧ (∀ k, hasKey okvs k = true →
          objGet rkvs k = deepMerge (objGet bkvs k) (objGet okvs k))
      ∧ (∀ k, hasKey okvs k = true → hasKey bkvs k = false →
          objGet rkvs k = objGet okvs k)
      ∧ (∀ k, hasKey okvs k = true →
          (isScalar (objGet okvs k) || isArr (objGet okvs k)) = true →
          objGet rkvs k = objGet okvs k) := by
  refine ⟨mergeInto bkvs bkvs okvs, rfl, ?_, ?_, ?_, ?_, ?_⟩
  · intro k
    exact mergeInto_hasKey okvs bkvs bkvs k
  · intro k _ hno
    exact mergeInto_objGet_notin okvs bkvs bkvs k hno
  · intro k hk
    exact mergeInto_objGet_in okvs bkvs bkvs k ho hk
  · intro k hk hb
    rw [mergeInto_objGet_in okvs bkvs bkvs k ho hk,
      objGet_of_hasKey_false bkvs k hb, deepMerge_undef]
  · intro k hk hsc
    rw [mergeInto_objGet_in okvs bkvs bkvs k ho hk, deepMerge_replace _ _ hsc]

theorem deepMerge_mapping_spec_witness :
    ∃ rkvs, deepMerge (.obj (.cons "x" (.num 1) .nil)) (.obj (.cons "y" (.num 2) .nil))
        = .obj rkvs
      ∧ (∀ k, hasKey rkvs k
          = (hasKey (.cons "x" (.num 1) .nil) k || hasKey (.cons "y" (.num 2) .nil) k)) := by
  obtain ⟨r, h1, h2, _⟩ :=
    deepMerge_mapping_spec (.cons "x" (.num 1) .nil) (.cons "y" (.num 2) .nil) (by decide)
  exact ⟨r, h1, h2⟩

/-! ## Claims C7 and C8: the leaf editor commit handlers -/

theorem trimChars_eq_nil_iff (cs : List Char) :
    trimChars cs = [] ↔ cs.all isJsSpace = true := by
  unfold trimChars
  rw [List.reverse_eq_nil_iff, List.dropWhile_eq_nil_iff]
  constructor
  · intro h
    rw [List.all_eq_true]
    intro x hx
    rcases List.mem_append.1
        (by rw [List.takeWhile_append_dropWhile (p := isJsSpace) (l := cs)]; exact hx :
          x ∈ cs.takeWhile isJsSpace ++ cs.dropWhile isJsSpace) with h1 | h1
    · exact List.mem_takeWhile_imp h1
    · exact h x (List.mem_reverse.2 h1)
  · intro h x hx
    rw [List.all_eq_true] at h
    exact h x ((List.dropWhile_sublist isJsSpace).subset (List.mem_reverse.1 hx))

theorem jsTrim_eq_empty_iff (s : String) :
    jsTrim s = "" ↔ s.data.all isJsSpace = true := by
  rw [← trimChars_eq_nil_iff]
  constructor
  · intro h
    have := congrArg String.data h
    simpa [jsTrim] using this
  · intro h
    rw [jsTrim, h]

/-- The two line pipelines agree: trimming then dropping empty lines (the
source) equals dropping whitespace-only lines then trimming (the claim). -/
theorem commitLines_eq_specLines (text : String) : commitLines text = specLines text := by
  unfold commitLines specLines
  rw [List.filter_map]
  congr 1
  apply List.filter_congr
  intro l _
  by_cases h : l.data.all isJsSpace = true
  · simp [Function.comp, (jsTrim_eq_empty_iff l).2 h, h]
  · have : jsTrim l ≠ "" := fun hh => h ((jsTrim_eq_empty_iff l).1 hh)
    simp [Function.comp, this, h]

theorem parseLine_num (numF : String → Option Rat) (jsonF : String → Option JsonValue)
    (line : String) (q : Rat) (h1 : line ≠ "true") (h2 : line ≠ "false")
    (h3 : numF line = some q) : parseLine numF jsonF line = .num q := by
  simp [parseLine, h1, h2, h3]

theorem parseLine_bool_true (numF : String → Option Rat) (jsonF : String → Option JsonValue) :
    parseLine numF jsonF "true" = .bool true := by
  simp [parseLine]

theorem parseLine_bool_false (numF : String → Option Rat)
    (jsonF : String → Option JsonValue) : parseLine numF jsonF "false" = .bool false := by
  simp [parseLine]

/-- C7: the committed textarea text is split into lines, blank
(whitespace-only) lines are dropped, each remaining trimmed line is mapped
by the literal/number/structured-literal/raw-string cascade, and exactly
one callback is emitted replacing the whole array at the node's path.  The
statement is parametric in the number parser and the structured-literal
parser (the JavaScript Number and JSON.parse); the scenario conjuncts pin
the concrete decimal parser. -/
theorem commitArrayChanges_spec :
    (∀ (numF : String → Option Rat) (jsonF : String → Option JsonValue)
        (path : JsonPath) (text : String),
      commitArrayChanges numF jsonF path text
        = [(path, .arr (listToArr ((specLines text).map (parseLine numF jsonF))))]
        ∧ (commitArrayChanges numF jsonF path text).length = 1)
    ∧ (∀ (jsonF : String → Option JsonValue) (path : JsonPath),
        commitArrayChanges jsNumber jsonF path (String.mk ['1', '\n', '\n', '2'])
          = [(path, .arr (.cons (.num 1) (.cons (.num 2) .nil)))])
    ∧ (∀ (jsonF : String → Option JsonValue) (path : JsonPath),
        commitArrayChanges jsNumber jsonF path
            (String.mk ['t', 'r', 'u', 'e', '\n', 'f', 'a', 'l', 's', 'e'])
          = [(path, .arr (.cons (.bool true) (.cons (.bool false) .nil)))]) := by
  refine ⟨?_, ?_, ?_⟩
  · intro numF jsonF path text
    rw [commitArrayChanges, commitLines_eq_specLines]
    exact ⟨rfl, rfl⟩
  · intro jsonF path
    rw [commitArrayChanges,
      show commitLines (String.mk ['1', '\n', '\n', '2']) = ["1", "2"] from by decide]
    rw [List.map_cons, List.map_cons, List.map_nil,
      parseLine_num jsNumber jsonF "1" 1 (by decide) (by decide) (by decide),
      parseLine_num jsNumber jsonF "2" 2 (by decide) (by decide) (by decide)]
    rfl
  · intro jsonF path
    rw [commitArrayChanges,
      show commitLines (String.mk ['t', 'r', 'u', 'e', '\n', 'f', 'a', 'l', 's', 'e'])
          = ["true", "false"] from by decide]
    rw [List.map_cons, List.map_cons, List.map_nil,
      parseLine_bool_true jsNumber jsonF, parseLine_bool_false jsNumber jsonF]
    rfl

/-! ## Claim C8 (corrected): the number change handler always emits -/

/-- C8 counterexample: on an emptied number field the handler emits a
callback carrying null - the edit is not treated as no change. -/
theorem handleNumberChange_counterexample :
    handleNumberChange jsNumber [] "" = [([], .null)]
      ∧ (handleNumberChange jsNumber [] "").length ≠ 0 := by
  decide

/-- C8 (amended): handleNumberChange always emits exactly one callback:
with null when the entered text is empty, with the parsed number when the
text parses, and with NaN when the nonempty text does not parse. -/
theorem handleNumberChange_spec :
    (∀ (numF : String → Option Rat) (path : JsonPath) (text : String),
        (handleNumberChange numF path text).length = 1)
    ∧ (∀ (numF : String → Option Rat) (path : JsonPath),
        handleNumberChange numF path "" = [(path, .null)])
    ∧ (∀ (numF : String → Option Rat) (path : JsonPath) (text : String) (q : Rat),
        text ≠ "" → numF text = some q →
        handleNumberChange numF path text = [(path, .num q)])
    ∧ (∀ (numF : String → Option Rat) (path : JsonPath) (text : String),
        text ≠ "" → numF text = none →
        handleNumberChange numF path text = [(path, .nan)]) := by
  refine ⟨?_, ?_, ?_, ?_⟩
  · intro numF path text
    rfl
  · intro numF path
    rfl
  · intro numF path text q ht hq
    simp [handleNumberChange, ht, hq]
  · intro numF path text ht hq
    simp [handleNumberChange, ht, hq]

theorem handleNumberChange_spec_witness :
    handleNumberChange jsNumber [] "5" = [([], .num 5)]
      ∧ handleNumberChange jsNumber [] "abc" = [([], .nan)] :=
  ⟨handleNumberChange_spec.2.2.1 jsNumber [] "5" 5 (by decide) (by decide),
   handleNumberChange_spec.2.2.2 jsNumber [] "abc" (by decide) (by decide)⟩

/-! ## Claim C6: collectPaths produces exactly the dot-joined pre-order
leaf paths -/

/-- The string collectPaths emits for a leaf is the dot-join of the prefix
followed by the coerced segment keys of the leaf path. -/
theorem collectPaths_eq_leaves : ∀ (v : JsonValue) (pre : List String),
    collectPaths v pre
      = (collectLeaves v).map (fun pr => dotJoin (pre ++ pr.1.map segKey)) := by
  refine jsonInductionVal
    (fun v => ∀ pre, collectPaths v pre
      = (collectLeaves v).map (fun pr => dotJoin (pre ++ pr.1.map segKey)))
    (fun xs => ∀ i pre, collectPathsArr xs i pre
      = (collectLeavesArr xs i).map (fun pr => dotJoin (pre ++ pr.1.map segKey)))
    (fun kvs => ∀ pre, collectPathsObj kvs pre
      = (collectLeavesObj kvs).map (fun pr => dotJoin (pre ++ pr.1.map segKey)))
    ?_ ?_ ?_ ?_ ?_ ?_ ?_ ?_ ?_ ?_ ?_ ?_
  · intro pre; simp [collectPaths, collectLeaves]
  · intro b pre; simp [collectPaths, collectLeaves]
  · intro q pre; simp [collectPaths, collectLeaves]
  · intro pre; simp [collectPaths, collectLeaves]
  · intro s pre; simp [collectPaths, collectLeaves]
  · intro pre; simp [collectPaths, collectLeaves]
  · intro xs ihq pre
    simp only [collectPaths, collectLeaves]
    exact ihq 0 pre
  · intro kvs ihr pre
    simp only [collectPaths, collectLeaves]
    exact ihr pre
  · intro i pre; simp [collectPathsArr, collectLeavesArr]
  · intro x xs ihx ihxs i pre
    simp only [collectPathsArr, collectLeavesArr, List.map_append, List.map_map]
    rw [ihx (pre ++ [natStr i]), ihxs (i + 1) pre]
    congr 1
    apply List.map_congr_left
    intro pr _
    simp [segKey, List.append_assoc]
  · intro pre; simp [collectPathsObj, collectLeavesObj]
  · intro k v rest ihv ihrest pre
    simp only [collectPathsObj, collectLeavesObj, List.map_append, List.map_map]
    rw [ihv (pre ++ [k]), ihrest pre]
    congr 1
    apply List.map_congr_left
    intro pr _
    simp [segKey, List.append_assoc]

/-- Every collected leaf is a scalar, and getValue at its path returns
exactly that leaf. -/
theorem collectLeaves_sound : ∀ (v : JsonValue), wf v = true →
    ∀ pr ∈ collectLeaves v, isScalar pr.2 = true ∧ getValue v pr.1 = pr.2 := by
  refine jsonInductionVal
    (fun v => wf v = true →
      ∀ pr ∈ collectLeaves v, isScalar pr.2 = true ∧ getValue v pr.1 = pr.2)
    (fun xs => ∀ (ys : JsonArr) (i : Nat), wfArr xs = true →
      (∀ j, arrGet ys (i + j) = arrGet xs j) →
      ∀ pr ∈ collectLeavesArr xs i, isScalar pr.2 = true ∧ getValue (.arr ys) pr.1 = pr.2)
    (fun kvs => ∀ (full : JsonObj), wfObj kvs = true →
      (∀ k, hasKey kvs k = true → objGet full k = objGet kvs k) →
      ∀ pr ∈ collectLeavesObj kvs, isScalar pr.2 = true ∧ getValue (.obj full) pr.1 = pr.2)
    ?_ ?_ ?_ ?_ ?_ ?_ ?_ ?_ ?_ ?_ ?_ ?_
  · intro _ pr hpr
    simp only [collectLeaves, List.mem_singleton] at hpr
    subst hpr
    exact ⟨rfl, rfl⟩
  · intro b _ pr hpr
    simp only [collectLeaves, List.mem_singleton] at hpr
    subst hpr
    exact ⟨rfl, rfl⟩
  · intro q _ pr hpr
    simp only [collectLeaves, List.mem_singleton] at hpr
    subst hpr
    exact ⟨rfl, rfl⟩
  · intro hw
    simp [wf] at hw
  · intro s _ pr hpr
    simp only [collectLeaves, List.mem_singleton] at hpr
    subst hpr
    exact ⟨rfl, rfl⟩
  · intro hw
    simp [wf] at hw
  · intro xs ihq hw pr hpr
    simp only [collectLeaves] at hpr
    refine ihq xs 0 (by simpa [wf] using hw) (fun j => by simp) pr hpr
  · intro kvs ihr hw pr hpr
    simp only [collectLeaves] at hpr
    refine ihr kvs (by simpa [wf] using hw) (fun k _ => rfl) pr hpr
  · intro ys i _ _ pr hpr
    simp [collectLeavesArr] at hpr
  · intro x xs ihx ihxs ys i hw hys pr hpr
    simp only [wfArr, Bool.and_eq_true] at hw
    simp only [collectLeavesArr, List.mem_append, List.mem_map] at hpr
    rcases hpr with ⟨pr0, hpr0, heq⟩ | hpr1
    · obtain ⟨hsc, hget⟩ := ihx hw.1 pr0 hpr0
      subst heq
      refine ⟨hsc, ?_⟩
      rw [getValue_cons]
      have harr : arrGet ys i = x := by
        have := hys 0
        simpa [arrGet] using this
      simp only [getStep, harr]
      exact hget
    · refine ihxs ys (i + 1) hw.2 ?_ pr hpr1
      intro j
      have := hys (j + 1)
      rw [show i + (j + 1) = i + 1 + j from by omega] at this
      simpa [arrGet] using this
  · intro full _ _ pr hpr
    simp [collectLeavesObj] at hpr
  · intro k v rest ihv ihrest full hw hfull pr hpr
    simp only [wfObj, Bool.and_eq_true, Bool.not_eq_true'] at hw
    simp only [collectLeavesObj, List.mem_append, List.mem_map] at hpr
    rcases hpr with ⟨pr0, hpr0, heq⟩ | hpr1
    · obtain ⟨hsc, hget⟩ := ihv hw.1.2 pr0 hpr0
      subst heq
      refine ⟨hsc, ?_⟩
      rw [getValue_cons]
      have hobj : objGet full k = v := by
        rw [hfull k (by simp [hasKey])]
        simp [objGet]
      simp only [getStep, hobj]
      exact hget
    · refine ihrest full hw.2 ?_ pr hpr1
      intro k1 hk1
      have hne : k ≠ k1 := by
        intro hh
        rw [hh] at hw
        exact absurd hk1 (by simp [hw.1.1])
      rw [hfull k1 (by simp [hasKey, hk1])]
      simp [objGet, if_neg hne]

/-- C6: collectPaths output is exactly the dot-joined pre-order leaf path
list; every collected leaf is a scalar readable at its path via getValue; a
scalar root contributes the single empty path; empty containers contribute
nothing. -/
theorem collectPaths_spec (v : JsonValue) (hv : wf v = true) :
    collectPaths v [] = (leafPaths v).map (fun p => dotJoin (p.map segKey))
      ∧ (∀ pr ∈ collectLeaves v, isScalar pr.2 = true ∧ getValue v pr.1 = pr.2)
      ∧ (isScalar v = true → leafPaths v = [[]])
      ∧ leafPaths (.arr .nil) = [] ∧ leafPaths (.obj .nil) = [] := by
  refine ⟨?_, collectLeaves_sound v hv, ?_, rfl, rfl⟩
  · rw [collectPaths_eq_leaves v [], leafPaths, List.map_map]
    simp
  · intro hsc
    cases v <;> simp_all [isScalar, leafPaths, collectLeaves]

theorem collectPaths_spec_witness :
    wf (.obj (.cons "p" (.obj (.cons "q" (.num 1)
        (.cons "r" (.arr (.cons (.num 2) (.cons (.num 3) .nil))) .nil))) .nil)) = true
      ∧ collectPaths (.obj (.cons "p" (.obj (.cons "q" (.num 1)
          (.cons "r" (.arr (.cons (.num 2) (.cons (.num 3) .nil))) .nil))) .nil)) []
        = (leafPaths (.obj (.cons "p" (.obj (.cons "q" (.num 1)
            (.cons "r" (.arr (.cons (.num 2) (.cons (.num 3) .nil))) .nil))) .nil))).map
            (fun p => dotJoin (p.map segKey)) :=
  ⟨by decide,
   (collectPaths_spec (.obj (.cons "p" (.obj (.cons "q" (.num 1)
      (.cons "r" (.arr (.cons (.num 2) (.cons (.num 3) .nil))) .nil))) .nil)) (by decide)).1⟩

/-! ## Claim C9: the important path set -/

theorem digitChar_ne_dot (d : Nat) (h : d < 10) : digitChar d ≠ '.' := by
  interval_cases d <;> decide

theorem natCharsCore_ne_dot : ∀ (fuel n : Nat) (acc : List Char),
    (∀ c ∈ acc, c ≠ '.') → ∀ c ∈ natCharsCore fuel n acc, c ≠ '.' := by
  intro fuel
  induction fuel with
  | zero => intro n acc hacc c hc; exact hacc c hc
  | succ fuel ih =>
    intro n acc hacc c hc
    by_cases h : n < 10
    · simp only [natCharsCore, if_pos h, List.mem_cons] at hc
      rcases hc with hc | hc
      · subst hc; exact digitChar_ne_dot n h
      · exact hacc c hc
    · simp only [natCharsCore, if_neg h] at hc
      refine ih (n / 10) _ ?_ c hc
      intro c1 hc1
      rcases List.mem_cons.1 hc1 with hc1 | hc1
      · subst hc1; exact digitChar_ne_dot _ (Nat.mod_lt n (by omega))
      · exact hacc c1 hc1

theorem natCharsCore_ne_nil : ∀ (fuel n : Nat) (acc : List Char),
    acc ≠ [] → natCharsCore fuel n acc ≠ [] := by
  intro fuel
  induction fuel with
  | zero => intro n acc hacc; exact hacc
  | succ fuel ih =>
    intro n acc hacc
    by_cases h : n < 10
    · simp [natCharsCore, if_pos h]
    · simp only [natCharsCore, if_neg h]
      exact ih (n / 10) _ (by simp)

theorem natChars_ne_nil (n : Nat) : natChars n ≠ [] := by
  unfold natChars
  by_cases h : n < 10
  · simp [natCharsCore, if_pos h]
  · simp only [natCharsCore, if_neg h]
    exact natCharsCore_ne_nil n (n / 10) _ (by simp)

theorem natChars_no_dot (n : Nat) : ∀ c ∈ natChars n, c ≠ '.' :=
  natCharsCore_ne_dot (n + 1) n [] (by simp)

theorem goodKey_natStr (n : Nat) : goodKey (natStr n) = true := by
  unfold goodKey natStr
  rw [Bool.and_eq_true]
  constructor
  · simp [List.isEmpty_iff, natChars_ne_nil n]
  · rw [List.all_eq_true]
    intro c hc
    simp [bne_iff_ne, natChars_no_dot n c hc]

theorem goodKey_ne_empty (s : String) (h : goodKey s = true) : s ≠ "" := by
  unfold goodKey at h
  rw [Bool.and_eq_true] at h
  intro hs
  subst hs
  simp at h

theorem goodKey_data_ne_nil (s : String) (h : goodKey s = true) : s.data ≠ [] := by
  unfold goodKey at h
  rw [Bool.and_eq_true] at h
  have := h.1
  simpa [List.isEmpty_iff] using this

theorem goodKey_no_dot (s : String) (h : goodKey s = true) : ∀ c ∈ s.data, c ≠ '.' := by
  unfold goodKey at h
  rw [Bool.and_eq_true, List.all_eq_true] at h
  intro c hc
  have := h.2 c hc
  simpa [bne_iff_ne] using this

theorem splitCharOn_ne_nil (sep : Char) (cs : List Char) : splitCharOn sep cs ≠ [] := by
  induction cs with
  | nil => simp [splitCharOn]
  | cons c rest ih =>
    cases hsplit : splitCharOn sep rest with
    | nil => exact absurd hsplit ih
    | cons h t =>
      by_cases hc : c = sep <;> simp [splitCharOn, hsplit, hc]

theorem splitCharOn_append (sep : Char) : ∀ (l cs : List Char) (h : List Char)
    (t : List (List Char)), (∀ c ∈ l, c ≠ sep) → splitCharOn sep cs = h :: t →
    splitCharOn sep (l ++ cs) = (l ++ h) :: t := by
  intro l
  induction l with
  | nil => intro cs h t _ hcs; simpa using hcs
  | cons c l1 ih =>
    intro cs h t hl hcs
    have hc : c ≠ sep := hl c (by simp)
    have ih1 := ih cs h t (fun c1 hc1 => hl c1 (by simp [hc1])) hcs
    show splitCharOn sep (c :: (l1 ++ cs)) = ((c :: l1) ++ h) :: t
    simp only [splitCharOn, ih1, if_neg hc, List.cons_append]

theorem joinWith_eq_nil (sep : Char) (L : List (List Char)) (h : joinWith sep L = []) :
    L = [] ∨ L = [[]] := by
  match L with
  | [] => exact Or.inl rfl
  | [l] =>
    right
    simp only [joinWith] at h
    rw [h]
  | l :: l2 :: rest =>
    exfalso
    simp only [joinWith] at h
    rcases List.append_eq_nil.1 h with ⟨_, h2⟩
    exact List.cons_ne_nil _ _ h2

theorem splitCharOn_joinWith (sep : Char) : ∀ (L : List (List Char)), L ≠ [] →
    (∀ l ∈ L, ∀ c ∈ l, c ≠ sep) → splitCharOn sep (joinWith sep L) = L := by
  intro L
  induction L with
  | nil => intro h; exact absurd rfl h
  | cons l L1 ih =>
    intro _ hL
    cases L1 with
    | nil =>
      show splitCharOn sep (joinWith sep [l]) = [l]
      have : joinWith sep [l] = l ++ [] := by simp [joinWith]
      rw [this, splitCharOn_append sep l [] [] [] (hL l (by simp)) rfl]
      simp
    | cons l2 rest =>
      have hjoin : joinWith sep (l :: l2 :: rest) = l ++ (sep :: joinWith sep (l2 :: rest)) := by
        simp [joinWith]
      have hX : splitCharOn sep (joinWith sep (l2 :: rest)) = l2 :: rest := by
        refine ih (by simp) ?_
        intro l1 hl1
        exact hL l1 (by simp [hl1])
      have hsep : splitCharOn sep (sep :: joinWith sep (l2 :: rest)) = [] :: l2 :: rest := by
        simp [splitCharOn, hX]
      rw [hjoin, splitCharOn_append sep l _ [] (l2 :: rest) (hL l (by simp)) hsep]
      simp

theorem splitStrOn_dotJoin (SL : List String) (h0 : SL ≠ [])
    (h1 : ∀ s ∈ SL, ∀ c ∈ s.data, c ≠ '.') : splitStrOn '.' (dotJoin SL) = SL := by
  unfold splitStrOn dotJoin
  rw [show (String.mk (joinWith '.' (SL.map String.data))).data
      = joinWith '.' (SL.map String.data) from rfl]
  rw [splitCharOn_joinWith '.' (SL.map String.data) (by simpa using h0) ?hgood]
  case hgood =>
    intro l hl
    rcases List.mem_map.1 hl with ⟨s, hs, heq⟩
    subst heq
    exact h1 s hs
  rw [List.map_map]
  apply List.map_id''
  intro s
  rfl

theorem dotJoin_nil : dotJoin [] = "" := rfl

theorem str_eq_empty_of_data (s : String) (h : s.data = []) : s = "" := by
  cases s with
  | mk d =>
    have hd : d = [] := h
    subst hd
    decide

theorem dotJoin_ne_empty (SL : List String) (h0 : SL ≠ [])
    (h1 : ∀ s ∈ SL, s ≠ "") : dotJoin SL ≠ "" := by
  intro h
  have hdata : joinWith '.' (SL.map String.data) = [] := by
    have := congrArg String.data h
    simpa [dotJoin] using this
  rcases joinWith_eq_nil '.' _ hdata with h2 | h2
  · exact h0 (by simpa using h2)
  · cases SL with
    | nil => exact h0 rfl
    | cons s rest =>
      cases rest with
      | nil =>
        simp only [List.map_cons, List.map_nil] at h2
        have hs : s.data = [] := by injection h2
        exact h1 s (by simp) (str_eq_empty_of_data s hs)
      | cons s2 rest2 => simp at h2

/-- Every segment key along a collected leaf path is a good key (array
indices stringify to digit strings; mapping keys are good by hypothesis). -/
theorem collectLeaves_goodKeys : ∀ (v : JsonValue), goodKeys v = true →
    ∀ pr ∈ collectLeaves v, ∀ sg ∈ pr.1, goodKey (segKey sg) = true := by
  refine jsonInductionVal
    (fun v => goodKeys v = true →
      ∀ pr ∈ collectLeaves v, ∀ sg ∈ pr.1, goodKey (segKey sg) = true)
    (fun xs => ∀ i, goodKeysArr xs = true →
      ∀ pr ∈ collectLeavesArr xs i, ∀ sg ∈ pr.1, goodKey (segKey sg) = true)
    (fun kvs => goodKeysObj kvs = true →
      ∀ pr ∈ collectLeavesObj kvs, ∀ sg ∈ pr.1, goodKey (segKey sg) = true)
    ?_ ?_ ?_ ?_ ?_ ?_ ?_ ?_ ?_ ?_ ?_ ?_
  · intro _ pr hpr
    simp only [collectLeaves, List.mem_singleton] at hpr
    subst hpr
    simp
  · intro b _ pr hpr
    simp only [collectLeaves, List.mem_singleton] at hpr
    subst hpr
    simp
  · intro q _ pr hpr
    simp only [collectLeaves, List.mem_singleton] at hpr
    subst hpr
    simp
  · intro _ pr hpr
    simp only [collectLeaves, List.mem_singleton] at hpr
    subst hpr
    simp
  · intro s _ pr hpr
    simp only [collectLeaves, List.mem_singleton] at hpr
    subst hpr
    simp
  · intro _ pr hpr
    simp [collectLeaves] at hpr
  · intro xs ihq hg pr hpr
    simp only [collectLeaves] at hpr
    exact ihq 0 (by simpa [goodKeys] using hg) pr hpr
  · intro kvs ihr hg pr hpr
    simp only [collectLeaves] at hpr
    exact ihr (by simpa [goodKeys] using hg) pr hpr
  · intro i _ pr hpr
    simp [collectLeavesArr] at hpr
  · intro x xs ihx ihxs i hg pr hpr
    simp only [goodKeysArr, Bool.and_eq_true] at hg
    simp only [collectLeavesArr, List.mem_append, List.mem_map] at hpr
    rcases hpr with ⟨pr0, hpr0, heq⟩ | hpr1
    · subst heq
      intro sg hsg
      simp only [List.mem_cons] at hsg
      rcases hsg with hsg | hsg
      · subst hsg
        simp [segKey, goodKey_natStr]
      · exact ihx hg.1 pr0 hpr0 sg hsg
    · exact ihxs (i + 1) hg.2 pr hpr1
  · intro _ pr hpr
    simp [collectLeavesObj] at hpr
  · intro k v rest ihv ihrest hg pr hpr
    simp only [goodKeysObj, Bool.and_eq_true] at hg
    simp only [collectLeavesObj, List.mem_append, List.mem_map] at hpr
    rcases hpr with ⟨pr0, hpr0, heq⟩ | hpr1
    · subst heq
      intro sg hsg
      simp only [List.mem_cons] at hsg
      rcases hsg with hsg | hsg
      · subst hsg
        simpa [segKey] using hg.1.1
      · exact ihv hg.1.2 pr0 hpr0 sg hsg
    · exact ihrest hg.2 pr hpr1

/-- On trees whose mapping keys are nonempty and dot-free, computeImportant
produces exactly the dot-joins of the nonempty segment prefixes of every
nonempty leaf path. -/
theorem computeImportant_eq (v : JsonValue) (hg : goodKeys v = true) :
    computeImportant v = claimImportantPos v := by
  unfold computeImportant claimImportantPos
  rw [collectPaths_eq_leaves v []]
  have hlp : (collectLeaves v).map (fun pr => dotJoin ([] ++ pr.1.map segKey))
      = (leafPaths v).map (fun p => dotJoin (p.map segKey)) := by
    simp [leafPaths, List.map_map]
  rw [hlp, List.flatMap_map]
  apply List.flatMap_congr
  intro p hp
  have hgood : ∀ sg ∈ p, goodKey (segKey sg) = true := by
    rcases List.mem_map.1 hp with ⟨pr, hpr, heq⟩
    subst heq
    exact collectLeaves_goodKeys v hg pr hpr
  cases hpnil : p with
  | nil => simp [dotJoin_nil, prefixJoins]
  | cons sg0 p1 =>
    rw [← hpnil]
    have hkeys_ne : p.map segKey ≠ [] := by simp [hpnil]
    have hkeys_good : ∀ s ∈ p.map segKey, goodKey s = true := by
      intro s hs
      rcases List.mem_map.1 hs with ⟨sg, hsg, heq⟩
      subst heq
      exact hgood sg hsg
    have hne : dotJoin (p.map segKey) ≠ "" := by
      refine dotJoin_ne_empty _ hkeys_ne ?_
      intro s hs
      exact goodKey_ne_empty s (hkeys_good s hs)
    rw [if_neg hne]
    rw [splitStrOn_dotJoin (p.map segKey) hkeys_ne
      (fun s hs => goodKey_no_dot s (hkeys_good s hs))]
    unfold prefixJoins
    rw [List.length_map]
    apply List.map_congr_left
    intro i _
    rw [List.map_take]

/-- C9 counterexample: the dot-join of the empty proper prefix of the leaf
path a of the mapping with the single entry a is the empty string, which
the claim places in the important set but computeImportant never registers
(the source skips the empty path and starts its prefix loop at length 1,
so the root ancestor is never flagged). -/
theorem computeImportant_counterexample :
    "" ∈ claimImportantAll (.obj (.cons "a" (.num 1) .nil))
      ∧ "" ∉ computeImportant (.obj (.cons "a" (.num 1) .nil)) := by
  decide

/-- C9 (amended): on configurations whose mapping keys are nonempty and
dot-free, the important set contains exactly, for each nonempty leaf path,
the dot-joins of its nonempty segment prefixes (the full path included);
the empty root prefix and the empty path of a scalar root are never
registered.  The set is unchanged by the edit, merge-load and reset
operations of the host. -/
theorem computeImportant_spec (v : JsonValue) (hg : goodKeys v = true) :
    computeImportant v = claimImportantPos v
      ∧ (∀ (states : RunMode → Option ConfigState) (mode : RunMode) (path : JsonPath)
          (value : JsonValue) (m : RunMode),
          Option.map ConfigState.important (handleUpdate states mode path value m)
            = Option.map ConfigState.important (states m))
      ∧ (∀ (states : RunMode → Option ConfigState) (mode : RunMode) (loaded : JsonValue)
          (selected : String) (m : RunMode),
          Option.map ConfigState.important (loadConfigFromFile states mode loaded selected m)
            = Option.map ConfigState.important (states m))
      ∧ (∀ (states : RunMode → Option ConfigState) (mode : RunMode) (m : RunMode),
          Option.map ConfigState.important (resetToDefaults states mode m)
            = Option.map ConfigState.important (states m)) := by
  refine ⟨computeImportant_eq v hg, ?_, ?_, ?_⟩
  · intro states mode path value m
    unfold handleUpdate
    cases h : states mode with
    | none => rfl
    | some st =>
      by_cases hm : m = mode
      · subst hm
        simp [h]
      · simp [if_neg hm]
  · intro states mode loaded selected m
    unfold loadConfigFromFile
    cases h : states mode with
    | none => rfl
    | some st =>
      by_cases hm : m = mode
      · subst hm
        simp [h]
      · simp [if_neg hm]
  · intro states mode m
    unfold resetToDefaults
    cases h : states mode with
    | none => rfl
    | some st =>
      by_cases hm : m = mode
      · subst hm
        simp [h]
      · simp [if_neg hm]

theorem computeImportant_spec_witness :
    goodKeys (.obj (.cons "a" (.obj (.cons "b" (.num 1) .nil)) .nil)) = true
      ∧ computeImportant (.obj (.cons "a" (.obj (.cons "b" (.num 1) .nil)) .nil))
          = claimImportantPos (.obj (.cons "a" (.obj (.cons "b" (.num 1) .nil)) .nil)) :=
  ⟨by decide,
   (computeImportant_spec (.obj (.cons "a" (.obj (.cons "b" (.num 1) .nil)) .nil))
      (by decide)).1⟩
